import Mathlib

/-!
Verification development for the interpolation lecture notebook
(Lecture_Eight_Interpolation.ipynb): a shallow embedding of the
implemented cubic-spline builder and evaluator (spline_maker), together
with spec-modelled versions of the Lagrange-basis routines and the
Chebyshev node generator, whose bodies the notebook leaves as exercise
placeholders.

Machine real arithmetic is embedded as exact ℚ arithmetic (the claims
under study are stated for exact arithmetic); the external sparse
tridiagonal solver spsolve is embedded through its contract: the vector
it returns satisfies the assembled linear system.
-/

namespace Interp

/-! Definitions translated from the source of spline_maker.

The Python source indexes the n+1 sample nodes and values as numpy
arrays; here they are functions ℕ → ℚ together with the interval count
n (node count minus one). Per-interval quantities follow the source
line by line. -/

/-- Translation of df = fvals[1:] - fvals[0:n]. -/
def df (fvals : ℕ → ℚ) (j : ℕ) : ℚ := fvals (j + 1) - fvals j

/-- Translation of dx = xvals[1:] - xvals[0:n]. -/
def dx (xvals : ℕ → ℚ) (j : ℕ) : ℚ := xvals (j + 1) - xvals j

/-- Translation of dfdx = df/dx. -/
def dfdx (xvals fvals : ℕ → ℚ) (j : ℕ) : ℚ := df fvals j / dx xvals j

/-- Translation of rhs = dfdx[1:] - dfdx[0:n-1]. -/
def rhs (xvals fvals : ℕ → ℚ) (j : ℕ) : ℚ :=
  dfdx xvals fvals (j + 1) - dfdx xvals fvals j

/-- Translation of diag = 2./3.*(dx[1:] + dx[0:n-1]). -/
def diag (xvals : ℕ → ℚ) (j : ℕ) : ℚ := 2 / 3 * (dx xvals (j + 1) + dx xvals j)

/-- Entry (i, j) of the assembled matrix, indices as naturals. Translation of
Bmat = spdiags([diag, dx[1:]/3., dx[0:n-1]/3.], [0,-1,1], n-1, n-1):
scipy's spdiags places entry data[k][col] at position (col - offset[k], col),
so offset 0 places diag[c] at (c,c), offset -1 places dx[c+1]/3 at (c+1,c),
and offset 1 places dx[c]/3 at (c-1,c). -/
def Bent (xvals : ℕ → ℚ) (i j : ℕ) : ℚ :=
  if i = j then diag xvals j
  else if i = j + 1 then dx xvals (j + 1) / 3
  else if j = i + 1 then dx xvals j / 3
  else 0

/-- The assembled (n-1) x (n-1) tridiagonal matrix as a Matrix over Fin. -/
def Bmat (xvals : ℕ → ℚ) (N : ℕ) : Matrix (Fin N) (Fin N) ℚ :=
  Matrix.of fun i j => Bent xvals (i : ℕ) (j : ℕ)

/-- Contract of the external solver call bvec = spsolve(Bmat, rhs): the
returned vector satisfies the linear system. -/
def SolvesSystem (xvals fvals bint : ℕ → ℚ) (n : ℕ) : Prop :=
  (Bmat xvals (n - 1)).mulVec (fun j => bint (j : ℕ))
    = fun i : Fin (n - 1) => rhs xvals fvals (i : ℕ)

/-- Translation of bvec = np.append(0., bvec): curvature 0 prepended to
the solved interior curvatures. -/
def bvec (bint : ℕ → ℚ) (j : ℕ) : ℚ := if j = 0 then 0 else bint (j - 1)

/-- Translation of np.append(bvec[1:], 0.): the shifted curvature array used
in the cvec line, whose final entry is the implicit zero end curvature. -/
def bsh (bint : ℕ → ℚ) (n j : ℕ) : ℚ := if j + 1 < n then bvec bint (j + 1) else 0

/-- The full curvature sequence b_0..b_n of the built spline: b_0 = 0 from the
prepend, b_1..b_{n-1} from the solver, b_n = 0 from the append in the cvec
line. Used to state the assembled system in the spec's indexing. -/
def bfull (bint : ℕ → ℚ) (n j : ℕ) : ℚ := if j = 0 ∨ n ≤ j then 0 else bint (j - 1)

/-- Translation of cvec = dfdx - 2./3.*dx*bvec - dx/3.*np.append(bvec[1:],0.). -/
def cvec (xvals fvals bint : ℕ → ℚ) (n j : ℕ) : ℚ :=
  dfdx xvals fvals j - 2 / 3 * dx xvals j * bvec bint j - dx xvals j / 3 * bsh bint n j

/-- Translation of avec = (dfdx - dx*bvec - cvec)/(dx**2.). -/
def avec (xvals fvals bint : ℕ → ℚ) (n j : ℕ) : ℚ :=
  (dfdx xvals fvals j - dx xvals j * bvec bint j - cvec xvals fvals bint n j) / dx xvals j ^ 2

/-- Translation of the assignment body of the evaluation loop: segment j's
cubic avec[j]*dxloc**3 + bvec[j]*dxloc**2 + cvec[j]*dxloc + fvals[j] at
local offset dxloc = q - xvals[j]. -/
def segCubic (xvals fvals bint : ℕ → ℚ) (n j : ℕ) (q : ℚ) : ℚ :=
  avec xvals fvals bint n j * (q - xvals j) ^ 3 + bvec bint j * (q - xvals j) ^ 2
    + cvec xvals fvals bint n j * (q - xvals j) + fvals j

/-- The first derivative of segment j's cubic. -/
def segCubicD1 (xvals fvals bint : ℕ → ℚ) (n j : ℕ) (q : ℚ) : ℚ :=
  3 * avec xvals fvals bint n j * (q - xvals j) ^ 2 + 2 * bvec bint j * (q - xvals j)
    + cvec xvals fvals bint n j

/-- The second derivative of segment j's cubic. -/
def segCubicD2 (xvals fvals bint : ℕ → ℚ) (n j : ℕ) (q : ℚ) : ℚ :=
  6 * avec xvals fvals bint n j * (q - xvals j) + 2 * bvec bint j

/-- One iteration of the evaluation loop at a fixed query q: iteration jj
overwrites the running value with segment jj-1's cubic when
xvals[jj-1] <= q < xvals[jj] (the source masks inds = indsl*indsr), and
leaves it unchanged otherwise. -/
def loopStep (xvals fvals bint : ℕ → ℚ) (n : ℕ) (q : ℚ) (s : ℚ) (jj : ℕ) : ℚ :=
  if xvals (jj - 1) ≤ q ∧ q < xvals jj then segCubic xvals fvals bint n (jj - 1) q else s

/-- Translation of the loop for jj in xrange(1, n+1) acting on one entry of
svals, starting from the zero initialization svals = np.zeros(...). -/
def splineEvalLoop (xvals fvals bint : ℕ → ℚ) (n : ℕ) (q : ℚ) : ℚ :=
  (List.range' 1 n).foldl (loopStep xvals fvals bint n q) 0

/-- Translation of the whole spline_maker call on a query list. The source
allocates the output as svals = np.zeros(ivals.size) where ivals is a global
of the enclosing notebook, not the qvals argument; ivalsSize embeds that
ambient length. When n ≥ 1 and the ambient length differs from the query
length, numpy's masked assignment svals[inds] = ... fails (boolean mask of
mismatched length), embedded as none. -/
def spline_maker (ivalsSize : ℕ) (xvals fvals bint : ℕ → ℚ) (n : ℕ)
    (qvals : List ℚ) : Option (List ℚ) :=
  if n = 0 then some (List.replicate ivalsSize 0)
  else if ivalsSize = qvals.length then
    some (qvals.map (splineEvalLoop xvals fvals bint n))
  else none

/-- Modelled from the spec: the notebook leaves the body of lfun as an
exercise placeholder (the cell reads only lval = np.ones(x.size) and
a comment to insert code), so the basis value is taken from the spec
formula L_j(x) = prod over l ≠ j of (x - x_l)/(x_j - x_l), with m = n+1
sample nodes. -/
def lfunVal (xvals : ℕ → ℚ) (m jj : ℕ) (q : ℚ) : ℚ :=
  ∏ l ∈ (Finset.range m).erase jj, (q - xvals l) / (xvals jj - xvals l)

/-- Modelled from the spec: list-level lfun(xvals, jj, x), one basis value
per query entry. -/
def lfun (xvals : List ℚ) (jj : ℕ) (x : List ℚ) : List ℚ :=
  x.map (lfunVal (fun l => xvals.getD l 0) xvals.length jj)

/-- Modelled from the spec: the notebook leaves the body of lagran_interp as
an exercise placeholder, so the interpolant is taken from the spec formula
P(x) = sum over j of f_j * L_j(x), with m = n+1 sample nodes. -/
def lagran_interp (xvals fvals : ℕ → ℚ) (m : ℕ) (q : ℚ) : ℚ :=
  ∑ j ∈ Finset.range m, fvals j * lfunVal xvals m j q

/-- Modelled from the spec: the notebook cell defining xcheb is left blank,
so the Chebyshev abscissas are taken from the spec formula
x_j = cos((2j+1)π/(2n+2)) for j = 0..n. -/
noncomputable def xcheb (n j : ℕ) : ℝ :=
  Real.cos ((2 * (j : ℝ) + 1) * Real.pi / (2 * (n : ℝ) + 2))

/-- Modelled from the spec: the n+1 Chebyshev abscissas as a list. -/
noncomputable def xchebList (n : ℕ) : List ℝ := (List.range (n + 1)).map (xcheb n)

/-- Concrete sample nodes and values used as witnesses: the identity data
set x_j = f_j = j (three nodes, two intervals), for which the zero interior
curvature vector solves the assembled system. -/
def xlin : ℕ → ℚ := fun i => (i : ℚ)

/-- The zero interior curvature vector. -/
def bzero : ℕ → ℚ := fun _ => 0

/-- The notebook's concrete Lagrange nodes x = [-9,-4,-1,7]. -/
def xconc : ℕ → ℚ := fun j => [(-9 : ℚ), -4, -1, 7].getD j 0

/-- The notebook's concrete Lagrange values f = [5,2,-2,9]. -/
def fconc : ℕ → ℚ := fun j => [(5 : ℚ), 2, -2, 9].getD j 0

/-- Statement of claim C1 as written: every in-range query, the right
endpoint x_n included, lands in an interval whose segment cubic the loop
returns. -/
def C1Claim : Prop :=
  ∀ (xvals fvals bint : ℕ → ℚ) (n : ℕ), 1 ≤ n →
    (∀ i, i < n → xvals i < xvals (i + 1)) →
    SolvesSystem xvals fvals bint n →
    ∀ q, xvals 0 ≤ q → q ≤ xvals n →
      ∃ j, 1 ≤ j ∧ j ≤ n ∧ xvals (j - 1) ≤ q ∧ (q < xvals j ∨ j = n) ∧
        splineEvalLoop xvals fvals bint n q = segCubic xvals fvals bint n (j - 1) q

/-- Statement of claim C6 as written: both interpolants reproduce the
sample values at every node (the spline claim ranging over all nodes
x_0..x_n), plus the notebook's concrete Lagrange checks. -/
def C6Claim : Prop :=
  (∀ (xvals fvals : ℕ → ℚ) (m : ℕ),
      (∀ i j, i < m → j < m → i ≠ j → xvals i ≠ xvals j) →
      ∀ k, k < m → lagran_interp xvals fvals m (xvals k) = fvals k)
  ∧ (∀ (xvals fvals bint : ℕ → ℚ) (n : ℕ), 1 ≤ n →
      (∀ i, i < n → xvals i < xvals (i + 1)) →
      SolvesSystem xvals fvals bint n →
      ∀ k, k ≤ n → splineEvalLoop xvals fvals bint n (xvals k) = fvals k)
  ∧ lagran_interp xconc fconc 4 (-4) = 2
  ∧ lagran_interp xconc fconc 4 7 = 9

/-! Helper lemmas about the evaluation loop and node monotonicity. -/

/-- If no iteration in the list matches the query, the loop keeps its
running value. -/
theorem foldl_loopStep_of_none (xvals fvals bint : ℕ → ℚ) (n : ℕ) (q : ℚ)
    (l : List ℕ) (s : ℚ)
    (h : ∀ jj ∈ l, ¬(xvals (jj - 1) ≤ q ∧ q < xvals jj)) :
    l.foldl (loopStep xvals fvals bint n q) s = s := by
  induction l generalizing s with
  | nil => rfl
  | cons a t ih =>
    have ha : loopStep xvals fvals bint n q s a = s := by
      unfold loopStep
      exact if_neg (h a (List.mem_cons_self a t))
    simp only [List.foldl_cons, ha]
    exact ih s fun jj hjj => h jj (List.mem_cons_of_mem a hjj)

/-- If exactly one iteration in the list matches the query, the loop returns
that iteration's segment value. -/
theorem foldl_loopStep_of_unique (xvals fvals bint : ℕ → ℚ) (n : ℕ) (q : ℚ)
    (l : List ℕ) (s : ℚ) (j : ℕ) (hj : j ∈ l)
    (hcond : xvals (j - 1) ≤ q ∧ q < xvals j)
    (huniq : ∀ k ∈ l, (xvals (k - 1) ≤ q ∧ q < xvals k) → k = j) :
    l.foldl (loopStep xvals fvals bint n q) s = segCubic xvals fvals bint n (j - 1) q := by
  induction l generalizing s with
  | nil => cases hj
  | cons a t ih =>
    by_cases ha : a = j
    · subst ha
      have hstep : loopStep xvals fvals bint n q s a = segCubic xvals fvals bint n (a - 1) q := by
        unfold loopStep
        exact if_pos hcond
      simp only [List.foldl_cons, hstep]
      by_cases hat : a ∈ t
      · exact ih _ hat fun k hk hc => huniq k (List.mem_cons_of_mem a hk) hc
      · apply foldl_loopStep_of_none
        intro k hk hc
        have hkj : k = a := huniq k (List.mem_cons_of_mem a hk) hc
        exact hat (hkj ▸ hk)
    · have hna : ¬(xvals (a - 1) ≤ q ∧ q < xvals a) := fun hc =>
        ha (huniq a (List.mem_cons_self a t) hc)
      have hstep : loopStep xvals fvals bint n q s a = s := by
        unfold loopStep
        exact if_neg hna
      simp only [List.foldl_cons, hstep]
      have hjt : j ∈ t := by
        rcases List.mem_cons.mp hj with h' | h'
        · exact absurd h'.symm ha
        · exact h'
      exact ih s hjt fun k hk hc => huniq k (List.mem_cons_of_mem a hk) hc

/-- Weak monotonicity of the node sequence from adjacent strict increases. -/
theorem nodes_mono_le (xvals : ℕ → ℚ) (n : ℕ)
    (hm : ∀ i, i < n → xvals i < xvals (i + 1)) :
    ∀ i j, i ≤ j → j ≤ n → xvals i ≤ xvals j := by
  intro i j hij hjn
  induction j with
  | zero =>
    have : i = 0 := Nat.le_zero.mp hij
    simp [this]
  | succ m ih =>
    rcases Nat.lt_succ_iff_lt_or_eq.mp (Nat.lt_succ_of_le hij) with h | h
    · exact le_trans (ih (Nat.lt_succ_iff.mp h) (by omega)) (le_of_lt (hm m (by omega)))
    · exact le_of_eq (congrArg xvals h)

/-- An in-range query sits in some interval [x_i, x_{i+1}). -/
theorem exists_interval (xvals : ℕ → ℚ) (n : ℕ)
    (hm : ∀ i, i < n → xvals i < xvals (i + 1)) (q : ℚ)
    (h0 : xvals 0 ≤ q) (hn : q < xvals n) :
    ∃ i, i < n ∧ xvals i ≤ q ∧ q < xvals (i + 1) := by
  induction n with
  | zero => exact absurd (lt_of_le_of_lt h0 hn) (lt_irrefl _)
  | succ m ih =>
    by_cases hq : q < xvals m
    · obtain ⟨i, h1, h2, h3⟩ := ih (fun i hi => hm i (Nat.lt_succ_of_lt hi)) hq
      exact ⟨i, Nat.lt_succ_of_lt h1, h2, h3⟩
    · exact ⟨m, Nat.lt_succ_self m, le_of_not_lt hq, hn⟩

/-- Under strictly increasing nodes the loop intervals are pairwise
disjoint: at most one iteration index matches a query. -/
theorem interval_unique (xvals : ℕ → ℚ) (n : ℕ)
    (hm : ∀ i, i < n → xvals i < xvals (i + 1)) (q : ℚ)
    (j k : ℕ) (hj1 : 1 ≤ j) (hjn : j ≤ n) (hk1 : 1 ≤ k) (hkn : k ≤ n)
    (hcj : xvals (j - 1) ≤ q ∧ q < xvals j)
    (hck : xvals (k - 1) ≤ q ∧ q < xvals k) : k = j := by
  by_contra hne
  rcases Nat.lt_or_ge k j with h | h
  · have hle : xvals k ≤ xvals (j - 1) := nodes_mono_le xvals n hm k (j - 1) (by omega) (by omega)
    exact absurd (lt_of_le_of_lt (le_trans hle hcj.1) hck.2) (lt_irrefl _)
  · have hkj : j < k := by omega
    have hle : xvals j ≤ xvals (k - 1) := nodes_mono_le xvals n hm j (k - 1) (by omega) (by omega)
    exact absurd (lt_of_le_of_lt (le_trans hle hck.1) hcj.2) (lt_irrefl _)

/-- getD of a mapped list at an in-range index. -/
theorem getD_map (g : ℚ → ℚ) (l : List ℚ) (i : ℕ) (hi : i < l.length) :
    (l.map g).getD i 0 = g (l.getD i 0) := by
  induction l generalizing i with
  | nil => cases hi
  | cons a t ih =>
    cases i with
    | zero => rfl
    | succ m => exact ih m (by simpa using hi)

/-- The built cubic interpolates its left node: value at offset zero is the
constant coefficient fvals j. -/
theorem segCubic_left (xvals fvals bint : ℕ → ℚ) (n j : ℕ) :
    segCubic xvals fvals bint n j (xvals j) = fvals j := by
  unfold segCubic
  ring

/-! Extraction of the scalar tridiagonal equations from the matrix form. -/

/-- Pointwise decomposition of a row entry times the solved vector into the
three diagonal contributions. -/
theorem Bent_mul_split (xvals bint : ℕ → ℚ) (i j : ℕ) :
    Bent xvals i j * bint j
      = (if j = i then diag xvals i * bint i else 0)
        + (if j = i - 1 then (if 1 ≤ i then dx xvals i / 3 * bint (i - 1) else 0) else 0)
        + (if j = i + 1 then dx xvals (i + 1) / 3 * bint (i + 1) else 0) := by
  unfold Bent
  by_cases h1 : j = i
  · rw [h1, if_pos rfl, if_pos rfl]
    by_cases h0 : 1 ≤ i
    · rw [if_neg (by omega : ¬i = i - 1), if_neg (by omega : ¬i = i + 1)]
      ring
    · have hz : i = 0 := by omega
      rw [hz]
      norm_num
  · by_cases h2 : j = i - 1 ∧ 1 ≤ i
    · obtain ⟨hj, hi1⟩ := h2
      rw [hj, if_neg (by omega : ¬i = i - 1), if_pos (by omega : i = i - 1 + 1),
        if_neg (by omega : ¬i - 1 = i), if_pos rfl, if_pos hi1,
        if_neg (by omega : ¬i - 1 = i + 1)]
      have e : i - 1 + 1 = i := by omega
      rw [e]
      ring
    · by_cases h3 : j = i + 1
      · rw [h3, if_neg (by omega : ¬i = i + 1), if_neg (by omega : ¬i = i + 1 + 1), if_pos rfl,
          if_pos rfl, if_neg (by omega : ¬i + 1 = i), if_neg (by omega : ¬i + 1 = i - 1)]
        ring
      · rw [if_neg (fun hc => h1 hc.symm), if_neg (by omega : ¬i = j + 1), if_neg h3, if_neg h3,
          if_neg h1]
        by_cases hj : j = i - 1
        · rw [if_pos hj, if_neg (by omega : ¬1 ≤ i)]
          ring
        · rw [if_neg hj]
          ring

/-- Row i of the assembled matrix applied to the solved vector, written with
the full curvature sequence (column c of the matrix holds curvature
unknown b_{c+1}, so row i involves b_i, b_{i+1}, b_{i+2}). -/
theorem Bmat_row (xvals bint : ℕ → ℚ) (N : ℕ) (i : Fin N) :
    (Bmat xvals N).mulVec (fun j => bint (j : ℕ)) i
      = dx xvals (i : ℕ) / 3 * bfull bint (N + 1) (i : ℕ)
        + diag xvals (i : ℕ) * bfull bint (N + 1) ((i : ℕ) + 1)
        + dx xvals ((i : ℕ) + 1) / 3 * bfull bint (N + 1) ((i : ℕ) + 2) := by
  have hi : (i : ℕ) < N := i.isLt
  have hsum : (Bmat xvals N).mulVec (fun j => bint (j : ℕ)) i
      = ∑ j ∈ Finset.range N, Bent xvals (i : ℕ) j * bint j := by
    unfold Matrix.mulVec Matrix.dotProduct Bmat
    rw [← Fin.sum_univ_eq_sum_range (fun j => Bent xvals (i : ℕ) j * bint j) N]
    rfl
  rw [hsum]
  simp only [Bent_mul_split, Finset.sum_add_distrib]
  rw [Finset.sum_ite_eq' (Finset.range N) (i : ℕ) (fun _ => diag xvals (i : ℕ) * bint (i : ℕ))]
  rw [Finset.sum_ite_eq' (Finset.range N) ((i : ℕ) - 1)
    (fun _ => if 1 ≤ (i : ℕ) then dx xvals (i : ℕ) / 3 * bint ((i : ℕ) - 1) else 0)]
  rw [Finset.sum_ite_eq' (Finset.range N) ((i : ℕ) + 1)
    (fun _ => dx xvals ((i : ℕ) + 1) / 3 * bint ((i : ℕ) + 1))]
  rw [if_pos (Finset.mem_range.mpr hi), if_pos (Finset.mem_range.mpr (by omega))]
  unfold bfull
  rw [if_neg (by omega : ¬((i : ℕ) + 1 = 0 ∨ N + 1 ≤ (i : ℕ) + 1))]
  have e2 : (i : ℕ) + 1 - 1 = (i : ℕ) := by omega
  rw [e2]
  by_cases h1 : 1 ≤ (i : ℕ)
  · rw [if_pos h1, if_neg (by omega : ¬((i : ℕ) = 0 ∨ N + 1 ≤ (i : ℕ)))]
    by_cases h2 : (i : ℕ) + 1 < N
    · rw [if_pos (Finset.mem_range.mpr h2),
        if_neg (by omega : ¬((i : ℕ) + 2 = 0 ∨ N + 1 ≤ (i : ℕ) + 2))]
      have e3 : (i : ℕ) + 2 - 1 = (i : ℕ) + 1 := by omega
      rw [e3]
      ring
    · rw [if_neg (fun hc => h2 (Finset.mem_range.mp hc)),
        if_pos (by omega : (i : ℕ) + 2 = 0 ∨ N + 1 ≤ (i : ℕ) + 2)]
      ring
  · rw [if_neg h1, if_pos (by omega : (i : ℕ) = 0 ∨ N + 1 ≤ (i : ℕ))]
    by_cases h2 : (i : ℕ) + 1 < N
    · rw [if_pos (Finset.mem_range.mpr h2),
        if_neg (by omega : ¬((i : ℕ) + 2 = 0 ∨ N + 1 ≤ (i : ℕ) + 2))]
      have e3 : (i : ℕ) + 2 - 1 = (i : ℕ) + 1 := by omega
      rw [e3]
      ring
    · rw [if_neg (fun hc => h2 (Finset.mem_range.mp hc)),
        if_pos (by omega : (i : ℕ) + 2 = 0 ∨ N + 1 ≤ (i : ℕ) + 2)]
      ring

/-- The scalar tridiagonal equations satisfied by the full curvature
sequence of a built spline: for every interior node index k. -/
theorem tri_row (xvals fvals bint : ℕ → ℚ) (n : ℕ) (hn : 1 ≤ n)
    (hs : SolvesSystem xvals fvals bint n) :
    ∀ k, 1 ≤ k → k < n →
      dx xvals (k - 1) / 3 * bfull bint n (k - 1)
        + diag xvals (k - 1) * bfull bint n k
        + dx xvals k / 3 * bfull bint n (k + 1)
      = dfdx xvals fvals k - dfdx xvals fvals (k - 1) := by
  intro k hk1 hkn
  have hNk : k - 1 < n - 1 := by omega
  have hrow := congrFun hs ⟨k - 1, hNk⟩
  rw [Bmat_row] at hrow
  have hN1 : n - 1 + 1 = n := by omega
  rw [hN1] at hrow
  have e1 : (k - 1) + 1 = k := by omega
  have e2 : (k - 1) + 2 = k + 1 := by omega
  rw [e1, e2] at hrow
  rw [hrow]
  unfold rhs
  rw [e1]

/-! Bridges between the source's curvature arrays and the full curvature
sequence, and algebraic simplifications of the coefficient formulas. -/

/-- bvec agrees with the full curvature sequence below index n. -/
theorem bvec_eq_bfull (bint : ℕ → ℚ) (n j : ℕ) (hj : j < n) :
    bvec bint j = bfull bint n j := by
  unfold bvec bfull
  by_cases h : j = 0
  · rw [if_pos h, if_pos (Or.inl h)]
  · rw [if_neg h, if_neg (by omega)]

/-- The shifted curvature array is the full curvature sequence at the next
index. -/
theorem bsh_eq_bfull (bint : ℕ → ℚ) (n j : ℕ) :
    bsh bint n j = bfull bint n (j + 1) := by
  unfold bsh bfull bvec
  by_cases h : j + 1 < n
  · rw [if_pos h, if_neg (by omega : ¬(j + 1 = 0 ∨ n ≤ j + 1)), if_neg (by omega : ¬j + 1 = 0)]
  · rw [if_neg h, if_pos (by omega : j + 1 = 0 ∨ n ≤ j + 1)]

/-- The divided difference times its interval width gives the value jump. -/
theorem dfdx_mul_dx (xvals fvals : ℕ → ℚ) (j : ℕ) (hdx : dx xvals j ≠ 0) :
    dfdx xvals fvals j * dx xvals j = fvals (j + 1) - fvals j := by
  unfold dfdx df
  exact div_mul_cancel₀ _ hdx

/-- The cubic coefficient times its interval width in terms of the curvature
jump: avec j * dx j = (b_{j+1} - b_j)/3. -/
theorem avec_mul_dx (xvals fvals bint : ℕ → ℚ) (n j : ℕ) (hj : j < n)
    (hdx : dx xvals j ≠ 0) :
    avec xvals fvals bint n j * dx xvals j
      = (bfull bint n (j + 1) - bfull bint n j) / 3 := by
  unfold avec cvec
  rw [bsh_eq_bfull, bvec_eq_bfull bint n j hj]
  field_simp
  ring

/-! Derivatives of the segment cubics, as genuine derivatives over the
normed field ℚ. -/

/-- The segment cubic has derivative segCubicD1. -/
theorem segCubic_hasDerivAt (xvals fvals bint : ℕ → ℚ) (n j : ℕ) (q : ℚ) :
    HasDerivAt (segCubic xvals fvals bint n j) (segCubicD1 xvals fvals bint n j q) q := by
  have h0 : HasDerivAt (fun t : ℚ => t - xvals j) 1 q := (hasDerivAt_id q).sub_const (xvals j)
  have key := ((((h0.pow 3).const_mul (avec xvals fvals bint n j)).add
    ((h0.pow 2).const_mul (bvec bint j))).add
    (h0.const_mul (cvec xvals fvals bint n j))).add_const (fvals j)
  have hval : segCubicD1 xvals fvals bint n j q
      = avec xvals fvals bint n j * ((3 : ℕ) * (q - xvals j) ^ (3 - 1) * 1)
        + bvec bint j * ((2 : ℕ) * (q - xvals j) ^ (2 - 1) * 1)
        + cvec xvals fvals bint n j * 1 := by
    unfold segCubicD1
    push_cast
    ring
  rw [hval]
  exact key

/-- The first derivative has derivative segCubicD2. -/
theorem segCubicD1_hasDerivAt (xvals fvals bint : ℕ → ℚ) (n j : ℕ) (q : ℚ) :
    HasDerivAt (segCubicD1 xvals fvals bint n j) (segCubicD2 xvals fvals bint n j q) q := by
  have h0 : HasDerivAt (fun t : ℚ => t - xvals j) 1 q := (hasDerivAt_id q).sub_const (xvals j)
  have key := (((h0.pow 2).const_mul (3 * avec xvals fvals bint n j)).add
    (h0.const_mul (2 * bvec bint j))).add_const (cvec xvals fvals bint n j)
  have hval : segCubicD2 xvals fvals bint n j q
      = 3 * avec xvals fvals bint n j * ((2 : ℕ) * (q - xvals j) ^ (2 - 1) * 1)
        + 2 * bvec bint j * 1 := by
    unfold segCubicD2
    push_cast
    ring
  rw [hval]
  exact key

/-- The deriv of a segment cubic is segCubicD1 everywhere. -/
theorem deriv_segCubic (xvals fvals bint : ℕ → ℚ) (n j : ℕ) :
    deriv (segCubic xvals fvals bint n j) = segCubicD1 xvals fvals bint n j :=
  funext fun q => (segCubic_hasDerivAt xvals fvals bint n j q).deriv

/-- The second deriv of a segment cubic is segCubicD2 everywhere. -/
theorem deriv_deriv_segCubic (xvals fvals bint : ℕ → ℚ) (n j : ℕ) :
    deriv (deriv (segCubic xvals fvals bint n j)) = segCubicD2 xvals fvals bint n j := by
  rw [deriv_segCubic]
  exact funext fun q => (segCubicD1_hasDerivAt xvals fvals bint n j q).deriv

/-! Continuity algebra at the interior nodes. -/

/-- The segment cubic interpolates its right node. -/
theorem segCubic_right (xvals fvals bint : ℕ → ℚ) (n j : ℕ) (hj : j < n)
    (hdx : dx xvals j ≠ 0) :
    segCubic xvals fvals bint n j (xvals (j + 1)) = fvals (j + 1) := by
  have h1 := avec_mul_dx xvals fvals bint n j hj hdx
  have h2 := dfdx_mul_dx xvals fvals j hdx
  unfold segCubic cvec
  rw [bsh_eq_bfull, bvec_eq_bfull bint n j hj]
  unfold dx at h1 h2 ⊢
  linear_combination (xvals (j + 1) - xvals j) ^ 2 * h1 + h2

/-- First-derivative continuity at an interior node, from the solved
tridiagonal system. -/
theorem segCubicD1_continuity (xvals fvals bint : ℕ → ℚ) (n : ℕ) (hn : 1 ≤ n)
    (hs : SolvesSystem xvals fvals bint n) (i : ℕ) (hin : i + 1 < n)
    (hdx : dx xvals i ≠ 0) :
    segCubicD1 xvals fvals bint n i (xvals (i + 1))
      = segCubicD1 xvals fvals bint n (i + 1) (xvals (i + 1)) := by
  have h1 := avec_mul_dx xvals fvals bint n i (by omega) hdx
  have H := tri_row xvals fvals bint n hn hs (i + 1) (by omega) hin
  simp only [Nat.add_sub_cancel] at H
  unfold segCubicD1 cvec
  rw [bsh_eq_bfull, bsh_eq_bfull, bvec_eq_bfull bint n i (by omega),
    bvec_eq_bfull bint n (i + 1) hin]
  unfold diag at H
  unfold dx at H h1 ⊢
  linear_combination 3 * (xvals (i + 1) - xvals i) * h1 + H

/-- Second-derivative continuity at an interior node, unconditional on the
system: the avec formula alone matches adjacent curvatures. -/
theorem segCubicD2_continuity (xvals fvals bint : ℕ → ℚ) (n : ℕ) (i : ℕ) (hin : i + 1 < n)
    (hdx : dx xvals i ≠ 0) :
    segCubicD2 xvals fvals bint n i (xvals (i + 1))
      = segCubicD2 xvals fvals bint n (i + 1) (xvals (i + 1)) := by
  have h1 := avec_mul_dx xvals fvals bint n i (by omega) hdx
  unfold segCubicD2
  rw [bvec_eq_bfull bint n i (by omega), bvec_eq_bfull bint n (i + 1) hin]
  unfold dx at h1
  linear_combination 6 * h1

/-- The second derivative of the first segment vanishes at the left
boundary node: the prepended curvature b_0 is zero. -/
theorem segCubicD2_left_end (xvals fvals bint : ℕ → ℚ) (n : ℕ) :
    segCubicD2 xvals fvals bint n 0 (xvals 0) = 0 := by
  unfold segCubicD2 bvec
  simp

/-- The second derivative of the last segment vanishes at the right
boundary node: the appended end curvature is zero. -/
theorem segCubicD2_right_end (xvals fvals bint : ℕ → ℚ) (n : ℕ) (hn : 1 ≤ n)
    (hdx : dx xvals (n - 1) ≠ 0) :
    segCubicD2 xvals fvals bint n (n - 1) (xvals n) = 0 := by
  obtain ⟨m, rfl⟩ : ∃ m, n = m + 1 := ⟨n - 1, by omega⟩
  have h1 := avec_mul_dx xvals fvals bint (m + 1) m (by omega)
    (by simpa only [Nat.add_sub_cancel] using hdx)
  have hbf : bfull bint (m + 1) (m + 1) = 0 := by
    unfold bfull
    rw [if_pos (Or.inr le_rfl)]
  rw [hbf] at h1
  simp only [Nat.add_sub_cancel]
  unfold segCubicD2
  rw [bvec_eq_bfull bint (m + 1) m (by omega)]
  unfold dx at h1
  linear_combination 6 * h1

/-! Lagrange basis properties. -/

/-- The Lagrange basis is a Kronecker delta on the nodes. -/
theorem lfunVal_basis (xvals : ℕ → ℚ) (m : ℕ)
    (hdist : ∀ i j, i < m → j < m → i ≠ j → xvals i ≠ xvals j)
    (jj k : ℕ) (hjj : jj < m) (hk : k < m) :
    lfunVal xvals m jj (xvals k) = if jj = k then 1 else 0 := by
  by_cases h : jj = k
  · subst h
    rw [if_pos rfl]
    unfold lfunVal
    apply Finset.prod_eq_one
    intro l hl
    have hlm : l < m := Finset.mem_range.mp (Finset.mem_of_mem_erase hl)
    have hlj : l ≠ jj := Finset.ne_of_mem_erase hl
    exact div_self (sub_ne_zero.mpr (hdist jj l hjj hlm fun hc => hlj hc.symm))
  · rw [if_neg h]
    unfold lfunVal
    exact Finset.prod_eq_zero
      (Finset.mem_erase.mpr ⟨fun hc => h hc.symm, Finset.mem_range.mpr hk⟩)
      (by rw [sub_self, zero_div])

/-- The Lagrange interpolant reproduces the sample values at the nodes. -/
theorem lagran_node (xvals fvals : ℕ → ℚ) (m : ℕ)
    (hdist : ∀ i j, i < m → j < m → i ≠ j → xvals i ≠ xvals j)
    (k : ℕ) (hk : k < m) :
    lagran_interp xvals fvals m (xvals k) = fvals k := by
  unfold lagran_interp
  rw [Finset.sum_eq_single k]
  · rw [lfunVal_basis xvals m hdist k k hk hk, if_pos rfl, mul_one]
  · intro j hj hjk
    rw [lfunVal_basis xvals m hdist j k (Finset.mem_range.mp hj) hk, if_neg hjk, mul_zero]
  · intro hk'
    exact absurd (Finset.mem_range.mpr hk) hk'

/-- The spline evaluation reproduces the sample value at every node except
the last: node x_k lies in interval k+1 at local offset zero. -/
theorem spline_node (xvals fvals bint : ℕ → ℚ) (n : ℕ)
    (hm : ∀ i, i < n → xvals i < xvals (i + 1)) (k : ℕ) (hk : k < n) :
    splineEvalLoop xvals fvals bint n (xvals k) = fvals k := by
  have hcond : xvals (k + 1 - 1) ≤ xvals k ∧ xvals k < xvals (k + 1) :=
    ⟨le_of_eq (congrArg xvals (by omega)), hm k hk⟩
  unfold splineEvalLoop
  rw [foldl_loopStep_of_unique xvals fvals bint n (xvals k) (List.range' 1 n) 0 (k + 1)
    (List.mem_range'_1.mpr ⟨by omega, by omega⟩) hcond
    (fun j hj hc => by
      have hj' := List.mem_range'_1.mp hj
      exact interval_unique xvals n hm (xvals k) (k + 1) j (by omega) (by omega)
        (by omega) (by omega) hcond hc)]
  exact segCubic_left xvals fvals bint n k

/-! Concrete instances used in witnesses and counterexamples. -/

/-- The identity data set is strictly increasing. -/
theorem xlin_mono : ∀ i : ℕ, xlin i < xlin (i + 1) := by
  intro i
  unfold xlin
  exact_mod_cast Nat.lt_succ_self i

/-- The zero interior curvature vector solves the assembled system for the
identity data set on three nodes. -/
theorem solves_xlin : SolvesSystem xlin xlin bzero 2 := by
  unfold SolvesSystem
  funext i
  fin_cases i
  show (Bmat xlin 1).mulVec (fun j => bzero (j : ℕ)) 0 = rhs xlin xlin 0
  unfold Matrix.mulVec Matrix.dotProduct Bmat
  rw [Fin.sum_univ_one]
  norm_num [Matrix.of_apply, Bent, diag, bzero, rhs, dfdx, df, dx, xlin]

/-- The loop value of the identity spline at the right endpoint x_2 = 2:
no interval matches, so the zero initialization survives. -/
theorem loop_xlin_right : splineEvalLoop xlin xlin bzero 2 2 = 0 := by
  simp only [splineEvalLoop, loopStep, List.range', List.foldl_cons, List.foldl_nil, xlin]
  norm_num

/-- Segment 1's cubic of the identity spline evaluated at the right endpoint
equals the sample value 2 there. -/
theorem seg_xlin_right : segCubic xlin xlin bzero 2 1 2 = 2 := by
  norm_num [segCubic, avec, cvec, bvec, bsh, dfdx, df, dx, bzero, xlin]

/-- The nodes of the notebook's concrete Lagrange data set are pairwise
distinct. -/
theorem xconc_distinct : ∀ i j, i < 4 → j < 4 → i ≠ j → xconc i ≠ xconc j := by
  intro i j hi hj hij
  interval_cases i <;> interval_cases j <;> simp_all [xconc] <;> norm_num

/-- The assembled matrix entries are symmetric in their indices. -/
theorem Bent_symm (xvals : ℕ → ℚ) (i j : ℕ) : Bent xvals i j = Bent xvals j i := by
  rcases Nat.lt_trichotomy i j with h | h | h
  · unfold Bent
    rw [if_neg (by omega : ¬i = j), if_neg (by omega : ¬i = j + 1), if_neg (by omega : ¬j = i)]
    by_cases h2 : j = i + 1
    · rw [if_pos h2, if_pos h2, h2]
    · rw [if_neg h2, if_neg h2, if_neg (by omega : ¬i = j + 1)]
  · rw [h]
  · unfold Bent
    rw [if_neg (by omega : ¬i = j), if_neg (by omega : ¬j = i), if_neg (by omega : ¬j = i + 1),
      if_neg (by omega : ¬j = i + 1)]
    by_cases h2 : i = j + 1
    · rw [if_pos h2, if_pos h2, h2]
    · rw [if_neg h2, if_neg h2]

/-- C2: for a Sample Set with at least 3 nodes (n ≥ 2 intervals), spline_maker
assembles a symmetric tridiagonal system for the interior curvatures whose
diagonal entries are 2/3*(dx_j + dx_{j+1}), whose super- and sub-diagonal
entries are dx_{j+1}/3 and dx_j/3, and whose right-hand side is g_{j+1} - g_j
with g the divided differences; the natural boundary value b_0 = 0 is
prepended to the solved vector, and the solved curvatures satisfy the scalar
tridiagonal equations. -/
theorem spline_system_assembly (xvals fvals bint : ℕ → ℚ) (n : ℕ) (hn : 2 ≤ n)
    (hs : SolvesSystem xvals fvals bint n) :
    (∀ i j : Fin (n - 1), Bmat xvals (n - 1) i j = Bmat xvals (n - 1) j i)
    ∧ (∀ j : Fin (n - 1), Bmat xvals (n - 1) j j
        = 2 / 3 * (dx xvals (j : ℕ) + dx xvals ((j : ℕ) + 1)))
    ∧ (∀ i j : Fin (n - 1), (j : ℕ) = (i : ℕ) + 1
        → Bmat xvals (n - 1) i j = dx xvals ((i : ℕ) + 1) / 3)
    ∧ (∀ i j : Fin (n - 1), (i : ℕ) = (j : ℕ) + 1
        → Bmat xvals (n - 1) i j = dx xvals (i : ℕ) / 3)
    ∧ (∀ i j : Fin (n - 1), (j : ℕ) + 2 ≤ (i : ℕ) ∨ (i : ℕ) + 2 ≤ (j : ℕ)
        → Bmat xvals (n - 1) i j = 0)
    ∧ (∀ j : Fin (n - 1), rhs xvals fvals (j : ℕ)
        = dfdx xvals fvals ((j : ℕ) + 1) - dfdx xvals fvals (j : ℕ))
    ∧ bvec bint 0 = 0
    ∧ (∀ j, 1 ≤ j → bvec bint j = bint (j - 1))
    ∧ (∀ k, 1 ≤ k → k < n →
        dx xvals (k - 1) / 3 * bfull bint n (k - 1)
          + 2 / 3 * (dx xvals (k - 1) + dx xvals k) * bfull bint n k
          + dx xvals k / 3 * bfull bint n (k + 1)
        = dfdx xvals fvals k - dfdx xvals fvals (k - 1)) := by
  refine ⟨?_, ?_, ?_, ?_, ?_, fun j => rfl, ?_, ?_, ?_⟩
  · intro i j
    exact Bent_symm xvals (i : ℕ) (j : ℕ)
  · intro j
    show Bent xvals (j : ℕ) (j : ℕ) = _
    unfold Bent
    rw [if_pos rfl]
    unfold diag
    ring
  · intro i j hij
    show Bent xvals (i : ℕ) (j : ℕ) = _
    unfold Bent
    rw [if_neg (by omega : ¬(i : ℕ) = (j : ℕ)), if_neg (by omega : ¬(i : ℕ) = (j : ℕ) + 1),
      if_pos hij, hij]
  · intro i j hij
    show Bent xvals (i : ℕ) (j : ℕ) = _
    unfold Bent
    rw [if_neg (by omega : ¬(i : ℕ) = (j : ℕ)), if_pos hij, hij]
  · intro i j hij
    show Bent xvals (i : ℕ) (j : ℕ) = _
    unfold Bent
    rw [if_neg (by omega : ¬(i : ℕ) = (j : ℕ)), if_neg (by omega : ¬(i : ℕ) = (j : ℕ) + 1),
      if_neg (by omega : ¬(j : ℕ) = (i : ℕ) + 1)]
  · unfold bvec
    rw [if_pos rfl]
  · intro j hj
    unfold bvec
    rw [if_neg (by omega : ¬j = 0)]
  · intro k hk1 hkn
    have h := tri_row xvals fvals bint n (by omega) hs k hk1 hkn
    unfold diag at h
    have e : k - 1 + 1 = k := by omega
    rw [e] at h
    linear_combination h

/-- C2 witness: concrete instantiation on the identity data set over three
nodes with the zero interior curvature solution. -/
theorem spline_system_assembly_witness :
    dx xlin 0 / 3 * bfull bzero 2 0 + 2 / 3 * (dx xlin 0 + dx xlin 1) * bfull bzero 2 1
      + dx xlin 1 / 3 * bfull bzero 2 2 = dfdx xlin xlin 1 - dfdx xlin xlin 0 :=
  (spline_system_assembly xlin xlin bzero 2 (by norm_num) solves_xlin).2.2.2.2.2.2.2.2 1
    (by norm_num) (by norm_num)

/-- C3: once the curvatures are known, the remaining coefficients satisfy
c_j = g_j - dx_j/3*(2 b_j + b_{j+1}) with b_n taken as 0,
a_j = (g_j - dx_j b_j - c_j)/dx_j^2, and the cubic's constant term is f_j
(its value at local offset zero). -/
theorem spline_coeff_backout (xvals fvals bint : ℕ → ℚ) (n j : ℕ) (hj : j < n) :
    cvec xvals fvals bint n j
      = dfdx xvals fvals j - dx xvals j / 3 * (2 * bfull bint n j + bfull bint n (j + 1))
    ∧ avec xvals fvals bint n j
      = (dfdx xvals fvals j - dx xvals j * bfull bint n j - cvec xvals fvals bint n j)
        / dx xvals j ^ 2
    ∧ segCubic xvals fvals bint n j (xvals j) = fvals j := by
  refine ⟨?_, ?_, segCubic_left xvals fvals bint n j⟩
  · unfold cvec
    rw [bsh_eq_bfull, bvec_eq_bfull bint n j hj]
    ring
  · unfold avec
    rw [bvec_eq_bfull bint n j hj]

/-- C3 witness: concrete instantiation on interval 0 of the identity data
set. -/
theorem spline_coeff_backout_witness :
    cvec xlin xlin bzero 2 0
      = dfdx xlin xlin 0 - dx xlin 0 / 3 * (2 * bfull bzero 2 0 + bfull bzero 2 1)
    ∧ avec xlin xlin bzero 2 0
      = (dfdx xlin xlin 0 - dx xlin 0 * bfull bzero 2 0 - cvec xlin xlin bzero 2 0)
        / dx xlin 0 ^ 2
    ∧ segCubic xlin xlin bzero 2 0 (xlin 0) = xlin 0 :=
  spline_coeff_backout xlin xlin bzero 2 0 (by norm_num)

/-- C4: with exact arithmetic and an exact tridiagonal solve, the value, the
first derivative, and the second derivative of adjacent segment cubics agree
at every interior node. -/
theorem spline_continuity (xvals fvals bint : ℕ → ℚ) (n : ℕ) (hn : 1 ≤ n)
    (hm : ∀ i, i < n → xvals i < xvals (i + 1))
    (hs : SolvesSystem xvals fvals bint n) :
    ∀ j, 1 ≤ j → j < n →
      segCubic xvals fvals bint n (j - 1) (xvals j) = segCubic xvals fvals bint n j (xvals j)
      ∧ deriv (segCubic xvals fvals bint n (j - 1)) (xvals j)
          = deriv (segCubic xvals fvals bint n j) (xvals j)
      ∧ deriv (deriv (segCubic xvals fvals bint n (j - 1))) (xvals j)
          = deriv (deriv (segCubic xvals fvals bint n j)) (xvals j) := by
  intro j hj1 hjn
  obtain ⟨i, rfl⟩ : ∃ i, j = i + 1 := ⟨j - 1, by omega⟩
  have hdx : dx xvals i ≠ 0 := by
    have h := hm i (by omega)
    unfold dx
    exact sub_ne_zero.mpr (ne_of_gt h)
  refine ⟨?_, ?_, ?_⟩
  · simp only [Nat.add_sub_cancel]
    rw [segCubic_right xvals fvals bint n i (by omega) hdx,
      segCubic_left xvals fvals bint n (i + 1)]
  · simp only [Nat.add_sub_cancel, deriv_segCubic]
    exact segCubicD1_continuity xvals fvals bint n hn hs i hjn hdx
  · simp only [Nat.add_sub_cancel, deriv_deriv_segCubic]
    exact segCubicD2_continuity xvals fvals bint n i hjn hdx

/-- C4 witness: concrete instantiation at the interior node of the identity
data set. -/
theorem spline_continuity_witness :
    segCubic xlin xlin bzero 2 0 (xlin 1) = segCubic xlin xlin bzero 2 1 (xlin 1)
    ∧ deriv (segCubic xlin xlin bzero 2 0) (xlin 1)
        = deriv (segCubic xlin xlin bzero 2 1) (xlin 1)
    ∧ deriv (deriv (segCubic xlin xlin bzero 2 0)) (xlin 1)
        = deriv (deriv (segCubic xlin xlin bzero 2 1)) (xlin 1) :=
  spline_continuity xlin xlin bzero 2 (by norm_num) (fun i _ => xlin_mono i) solves_xlin 1
    (by norm_num) (by norm_num)

/-- C5: the second derivative of the first segment's cubic at x_0 and of the
last segment's cubic at x_n are exactly zero (natural boundary conditions). -/
theorem spline_natural_boundary (xvals fvals bint : ℕ → ℚ) (n : ℕ) (hn : 1 ≤ n)
    (hm : ∀ i, i < n → xvals i < xvals (i + 1)) :
    deriv (deriv (segCubic xvals fvals bint n 0)) (xvals 0) = 0
    ∧ deriv (deriv (segCubic xvals fvals bint n (n - 1))) (xvals n) = 0 := by
  have hdx : dx xvals (n - 1) ≠ 0 := by
    have h := hm (n - 1) (by omega)
    unfold dx
    exact sub_ne_zero.mpr (ne_of_gt h)
  constructor
  · rw [deriv_deriv_segCubic]
    exact segCubicD2_left_end xvals fvals bint n
  · rw [deriv_deriv_segCubic]
    exact segCubicD2_right_end xvals fvals bint n hn hdx

/-- C5 witness: concrete instantiation on the identity data set. -/
theorem spline_natural_boundary_witness :
    deriv (deriv (segCubic xlin xlin bzero 2 0)) (xlin 0) = 0
    ∧ deriv (deriv (segCubic xlin xlin bzero 2 1)) (xlin 2) = 0 :=
  spline_natural_boundary xlin xlin bzero 2 (by norm_num) (fun i _ => xlin_mono i)

/-- C10: a query matched by no loop interval, in particular one below x_0 or
at or above x_n (the right endpoint x_n itself included), keeps the zero
initialization of the output: the loop silently returns 0 there, with no
error. -/
theorem spline_out_of_range_zero (xvals fvals bint : ℕ → ℚ) (n : ℕ)
    (hm : ∀ i, i < n → xvals i < xvals (i + 1)) (q : ℚ)
    (hq : (∀ jj, 1 ≤ jj → jj ≤ n → ¬(xvals (jj - 1) ≤ q ∧ q < xvals jj))
      ∨ q < xvals 0 ∨ xvals n ≤ q) :
    splineEvalLoop xvals fvals bint n q = 0 := by
  unfold splineEvalLoop
  apply foldl_loopStep_of_none
  intro jj hjj
  have hb := List.mem_range'_1.mp hjj
  rcases hq with h | h | h
  · exact h jj (by omega) (by omega)
  · intro hc
    have hle : xvals 0 ≤ xvals (jj - 1) :=
      nodes_mono_le xvals n hm 0 (jj - 1) (by omega) (by omega)
    linarith [hc.1]
  · intro hc
    have hle : xvals jj ≤ xvals n :=
      nodes_mono_le xvals n hm jj n (by omega) (by omega)
    linarith [hc.2]

/-- C10 witness: the identity spline evaluated at its right endpoint x_2 = 2
returns the zero initialization. -/
theorem spline_out_of_range_zero_witness : splineEvalLoop xlin xlin bzero 2 2 = 0 :=
  spline_out_of_range_zero xlin xlin bzero 2 (fun i _ => xlin_mono i) 2
    (Or.inr (Or.inr (by norm_num [xlin])))

/-- C1 counterexample: the claim as stated is false. At the concrete identity
data set the loop's intervals are all strictly half-open, so the right
endpoint x_n matches no interval: the loop returns the zero initialization
there, not segment n-1's cubic. -/
theorem spline_eval_right_endpoint_cex : ¬C1Claim := by
  intro h
  obtain ⟨j, hj1, hj2, hj3, hj4, hj5⟩ := h xlin xlin bzero 2 (by norm_num)
    (fun i _ => xlin_mono i) solves_xlin 2 (by norm_num [xlin]) (by norm_num [xlin])
  have hj12 : j = 1 ∨ j = 2 := by omega
  rcases hj12 with rfl | rfl
  · rcases hj4 with h4 | h4
    · rw [show xlin 1 = 1 from by norm_num [xlin]] at h4
      norm_num at h4
    · omega
  · have hseg : segCubic xlin xlin bzero 2 (2 - 1) 2 = 2 := seg_xlin_right
    rw [loop_xlin_right, hseg] at hj5
    norm_num at hj5

/-- C1 (amended): for strictly increasing nodes and a query q with
x_0 ≤ q < x_n (strictly below the right endpoint), the loop assigns q to the
unique half-open interval [x_{j-1}, x_j) containing it and returns segment
j-1's cubic at the local offset; every interval, the last one included, is
half-open on the right, so q = x_n is matched by no interval and keeps the
zero initialization. -/
theorem spline_eval_segment (xvals fvals bint : ℕ → ℚ) (n : ℕ)
    (hm : ∀ i, i < n → xvals i < xvals (i + 1)) (q : ℚ)
    (h0 : xvals 0 ≤ q) (hq : q < xvals n) :
    ∃ j, 1 ≤ j ∧ j ≤ n ∧ xvals (j - 1) ≤ q ∧ q < xvals j ∧
      splineEvalLoop xvals fvals bint n q = segCubic xvals fvals bint n (j - 1) q := by
  obtain ⟨i, hi, hle, hlt⟩ := exists_interval xvals n hm q h0 hq
  refine ⟨i + 1, by omega, by omega, hle, hlt, ?_⟩
  unfold splineEvalLoop
  rw [foldl_loopStep_of_unique xvals fvals bint n q (List.range' 1 n) 0 (i + 1)
    (List.mem_range'_1.mpr ⟨by omega, by omega⟩) ⟨hle, hlt⟩
    (fun k hk hc => by
      have hb := List.mem_range'_1.mp hk
      exact interval_unique xvals n hm q (i + 1) k (by omega) (by omega) (by omega) (by omega)
        ⟨hle, hlt⟩ hc)]

/-- C1 witness: concrete instantiation of the amended claim on the identity
data set at the interior query 1/2. -/
theorem spline_eval_segment_witness :
    ∃ j, 1 ≤ j ∧ j ≤ 2 ∧ xlin (j - 1) ≤ 1 / 2 ∧ (1 : ℚ) / 2 < xlin j ∧
      splineEvalLoop xlin xlin bzero 2 (1 / 2) = segCubic xlin xlin bzero 2 (j - 1) (1 / 2) :=
  spline_eval_segment xlin xlin bzero 2 (fun i _ => xlin_mono i) (1 / 2)
    (by norm_num [xlin]) (by norm_num [xlin])

/-- C6 counterexample: the claim as stated is false. The spline loop does not
reproduce the sample value at the last node: at the identity data set it
returns 0 at x_2 = 2 instead of f_2 = 2. -/
theorem node_reproduction_cex : ¬C6Claim := by
  intro h
  have h2 := h.2.1 xlin xlin bzero 2 (by norm_num) (fun i _ => xlin_mono i) solves_xlin 2 le_rfl
  rw [show xlin 2 = 2 from by norm_num [xlin], loop_xlin_right] at h2
  norm_num at h2

/-- C6 (amended): the Lagrange interpolant reproduces the sample values at
all nodes of any sample set with pairwise distinct nodes; the spline loop
reproduces them at the nodes x_0..x_{n-1} (the last node x_n is excluded,
where the loop keeps the zero initialization); in particular the notebook's
concrete Lagrange data set gives 2 at -4 and 9 at 7. -/
theorem node_reproduction :
    (∀ (xvals fvals : ℕ → ℚ) (m : ℕ),
        (∀ i j, i < m → j < m → i ≠ j → xvals i ≠ xvals j) →
        ∀ k, k < m → lagran_interp xvals fvals m (xvals k) = fvals k)
    ∧ (∀ (xvals fvals bint : ℕ → ℚ) (n : ℕ),
        (∀ i, i < n → xvals i < xvals (i + 1)) →
        ∀ k, k < n → splineEvalLoop xvals fvals bint n (xvals k) = fvals k)
    ∧ lagran_interp xconc fconc 4 (-4) = 2
    ∧ lagran_interp xconc fconc 4 7 = 9 := by
  refine ⟨lagran_node, spline_node, ?_, ?_⟩
  · have h := lagran_node xconc fconc 4 xconc_distinct 1 (by norm_num)
    have e1 : xconc 1 = -4 := by norm_num [xconc]
    have e2 : fconc 1 = 2 := by norm_num [fconc]
    rw [e1, e2] at h
    exact h
  · have h := lagran_node xconc fconc 4 xconc_distinct 3 (by norm_num)
    have e1 : xconc 3 = 7 := by norm_num [xconc]
    have e2 : fconc 3 = 9 := by norm_num [fconc]
    rw [e1, e2] at h
    exact h

/-- C6 witness: the Lagrange interpolant of the notebook's concrete data set
reproduces the sample value at node index 2. -/
theorem node_reproduction_witness :
    lagran_interp xconc fconc 4 (xconc 2) = fconc 2 :=
  node_reproduction.1 xconc fconc 4 xconc_distinct 2 (by norm_num)

/-- C7 (code bug evidence): spline_maker reads the ambient notebook global
ivals to size its output array, so the same explicit arguments produce a
result under one ambient length and a numpy indexing failure under another:
it is not a pure function of its explicit arguments. -/
theorem spline_maker_ambient_dependence :
    (∃ out, spline_maker 1 xlin xlin bzero 2 [1 / 2] = some out)
    ∧ spline_maker 2 xlin xlin bzero 2 [1 / 2] = none := by
  constructor
  · refine ⟨[(1 : ℚ) / 2].map (splineEvalLoop xlin xlin bzero 2), ?_⟩
    unfold spline_maker
    norm_num
  · unfold spline_maker
    norm_num

/-- C8: lfun returns one basis value per query, same length as the query
list, each entry given by the Lagrange basis product, and for a single-node
sample set (degenerate n = 0, empty product) the constant 1 everywhere. -/
theorem lfun_contract (xvals : List ℚ) (jj : ℕ) (x : List ℚ) (hjj : jj < xvals.length) :
    (lfun xvals jj x).length = x.length
    ∧ (∀ i, i < x.length →
        (lfun xvals jj x).getD i 0
          = ∏ l ∈ (Finset.range xvals.length).erase jj,
              (x.getD i 0 - xvals.getD l 0) / (xvals.getD jj 0 - xvals.getD l 0))
    ∧ (xvals.length = 1 → ∀ i, i < x.length → (lfun xvals jj x).getD i 0 = 1) := by
  refine ⟨List.length_map x _, ?_, ?_⟩
  · intro i hi
    unfold lfun
    rw [getD_map _ x i hi]
    rfl
  · intro h1 i hi
    unfold lfun
    rw [getD_map _ x i hi]
    unfold lfunVal
    have hj0 : jj = 0 := by omega
    rw [h1, hj0]
    simp [Finset.range_one]

/-- C8 witness: concrete instantiation on a two-node sample set and a
one-query list. -/
theorem lfun_contract_witness :
    (lfun [(0 : ℚ), 1] 0 [(5 : ℚ)]).length = [(5 : ℚ)].length :=
  (lfun_contract [0, 1] 0 [5] (by norm_num)).1

/-- C9: the Chebyshev node generator returns n+1 abscissas, given by
cos((2j+1)π/(2n+2)) for j = 0..n, ordered strictly decreasing. -/
theorem xcheb_contract (n : ℕ) :
    (xchebList n).length = n + 1
    ∧ (∀ j, xcheb n j = Real.cos ((2 * (j : ℝ) + 1) * Real.pi / (2 * (n : ℝ) + 2)))
    ∧ (∀ j k, j < k → k ≤ n → xcheb n k < xcheb n j) := by
  refine ⟨by simp [xchebList], fun j => rfl, ?_⟩
  intro j k hjk hkn
  have hjn : j ≤ n := by omega
  have hden : (0 : ℝ) < 2 * (n : ℝ) + 2 := by positivity
  have hpi := Real.pi_pos
  unfold xcheb
  apply Real.strictAntiOn_cos
  · refine Set.mem_Icc.mpr ⟨by positivity, ?_⟩
    rw [div_le_iff₀ hden]
    have hj : (j : ℝ) ≤ (n : ℝ) := by exact_mod_cast hjn
    nlinarith [hpi, hj]
  · refine Set.mem_Icc.mpr ⟨by positivity, ?_⟩
    rw [div_le_iff₀ hden]
    have hk : (k : ℝ) ≤ (n : ℝ) := by exact_mod_cast hkn
    nlinarith [hpi, hk]
  · have hjk' : 2 * (j : ℝ) + 1 < 2 * (k : ℝ) + 1 := by
      have h : (j : ℝ) < (k : ℝ) := by exact_mod_cast hjk
      linarith
    rw [div_lt_div_iff₀ hden hden]
    nlinarith [mul_lt_mul_of_pos_right (mul_lt_mul_of_pos_right hjk' hpi) hden]

/-- C9 witness: concrete instantiation showing the first three Chebyshev
abscissas for n = 2 decrease. -/
theorem xcheb_contract_witness : xcheb 2 2 < xcheb 2 1 :=
  (xcheb_contract 2).2.2 1 2 (by norm_num) (by norm_num)

end Interp
